import Mathlib

/-!
Verification of the Uzbek TTS text-normalization core.

We shallowly embed the Python modules `bot/numbers.py`, `bot/acronyms.py`,
`bot/transliterate.py`, `bot/text_processor.py` and `bot/text_splitter.py`.
Python strings are modelled as lists of Unicode code points (`List Nat`);
every operation the source performs on strings (`str.replace`, `str.split`,
`str.strip`, regex substitution with the concrete patterns appearing in the
source) is embedded as an executable structurally-recursive function, using
an explicit fuel argument (always instantiated with the string length, which
is an upper bound on the number of scanning steps) so that the kernel can
evaluate the definitions on concrete inputs.

Character-class predicates (`\d`, `\s`, `\w`, upper-case letters, the
Cyrillic block) are modelled over the code-point ranges relevant to the two
alphabets the program handles (ASCII and the Cyrillic block U+0400..U+04FF).
-/

set_option maxRecDepth 100000

namespace UzTTS

/-- A Python string, modelled as its list of Unicode code points. -/
abbrev PyStr := List Nat

/-- Code points of a Lean string literal (convenience for table entries). -/
def S (s : String) : PyStr := s.data.map Char.toNat

/-- The single code point of a one-character literal. -/
def C1 (s : String) : Nat := (S s).headD 0

/-- Tail-recursive length with an accumulator that is forced at every step
(by the `0` / `n + 1` match), so that the kernel can evaluate it on long
strings in constant stack space.  Used to model Python `len` and to supply
the fuel of the scanners. -/
def pyLenF : PyStr → Nat → Nat
  | [], n => n
  | _ :: r, 0 => pyLenF r 1
  | _ :: r, n + 1 => pyLenF r (n + 2)

/-- `len(s)`. -/
def pyLen (s : PyStr) : Nat := pyLenF s 0

/-- Tail-recursive string equality test, kernel-evaluable on long strings. -/
def eqPy : PyStr → PyStr → Bool
  | [], [] => true
  | [], _ :: _ => false
  | _ :: _, [] => false
  | c :: r, d :: s => if c = d then eqPy r s else false

/-- Tail-recursive equality test for lists of strings. -/
def eqChunks : List PyStr → List PyStr → Bool
  | [], [] => true
  | [], _ :: _ => false
  | _ :: _, [] => false
  | a :: r, b :: s => if eqPy a b then eqChunks r s else false

/-- Tail-recursive membership test for a code point in a string. -/
def memPy (t : Nat) : PyStr → Bool
  | [] => false
  | c :: r => if c = t then true else memPy t r

/-- `sep.join(parts)`. -/
def pyJoin (sep : PyStr) : List PyStr → PyStr
  | [] => []
  | [x] => x
  | x :: y :: rest => x ++ sep ++ pyJoin sep (y :: rest)

/-- Python `\s` / `str.strip()` whitespace (ASCII part, which is all the
source's inputs use): space, tab, newline, carriage return, vertical tab,
form feed. -/
def isSpaceCh (c : Nat) : Bool :=
  c = 0x20 || c = 0x9 || c = 0xA || c = 0xD || c = 0xB || c = 0xC

/-- Python `\d` (ASCII digits). -/
def isDigitCh (c : Nat) : Bool := 0x30 ≤ c && c ≤ 0x39

/-- `str.lstrip()`. -/
def pyLStrip (s : PyStr) : PyStr := s.dropWhile isSpaceCh

/-- `str.rstrip()`. -/
def pyRStrip (s : PyStr) : PyStr := (s.reverse.dropWhile isSpaceCh).reverse

/-- `str.strip()`. -/
def pyStrip (s : PyStr) : PyStr := pyRStrip (pyLStrip s)

/-- `str.split()` with no argument: split on runs of whitespace, discarding
empty pieces.  Fuel-indexed scanner; `pySplitWS` instantiates the fuel with
the string length. -/
def pySplitWSF : Nat → PyStr → List PyStr
  | _, [] => []
  | 0, s => [s]
  | fuel + 1, c :: rest =>
    if isSpaceCh c then pySplitWSF fuel rest
    else
      (c :: rest.takeWhile (fun d => !isSpaceCh d)) ::
        pySplitWSF fuel (rest.dropWhile (fun d => !isSpaceCh d))

def pySplitWS (s : PyStr) : List PyStr := pySplitWSF (pyLen s) s

/-- `str.replace(pat, rep)` for a non-empty `pat`: replace every
non-overlapping occurrence, scanning left to right.  Fuel-indexed. -/
def replaceAllF (pat rep : PyStr) : Nat → PyStr → PyStr
  | _, [] => []
  | 0, s => s
  | fuel + 1, c :: rest =>
    if pat.isPrefixOf (c :: rest) then
      rep ++ replaceAllF pat rep fuel (rest.drop (pat.length - 1))
    else
      c :: replaceAllF pat rep fuel rest

/-- `s.replace(pat, rep)`; the source never calls it with an empty `pat`. -/
def replaceAll (s pat rep : PyStr) : PyStr :=
  if pat = [] then s else replaceAllF pat rep (pyLen s) s

/-- `str.split(sep)` for a non-empty separator: split at every
non-overlapping occurrence, keeping empty pieces.  The accumulator holds the
current piece reversed. -/
def splitOnSubF (sep : PyStr) : Nat → PyStr → PyStr → List PyStr
  | _, acc, [] => [acc.reverse]
  | 0, acc, s => [acc.reverse ++ s]
  | fuel + 1, acc, c :: rest =>
    if sep.isPrefixOf (c :: rest) then
      acc.reverse :: splitOnSubF sep fuel [] (rest.drop (sep.length - 1))
    else
      splitOnSubF sep fuel (c :: acc) rest

/-- `s.split(sep)`; the source only calls it with a non-empty separator. -/
def splitOnSub (s sep : PyStr) : List PyStr :=
  if sep = [] then [s] else splitOnSubF sep (pyLen s) [] s

/-- `int(digits)` on a string of ASCII digits. -/
def pyInt (s : PyStr) : Nat := s.foldl (fun a c => 10 * a + (c - 0x30)) 0

/-! ## `bot/numbers.py` -/

/-- The `ONES` table (`numbers.py` lines 10-21); key 0 maps to the empty
string in the source. -/
def ONES : Nat → PyStr
  | 1 => S "бир"
  | 2 => S "икки"
  | 3 => S "уч"
  | 4 => S "тўрт"
  | 5 => S "беш"
  | 6 => S "олти"
  | 7 => S "етти"
  | 8 => S "саккиз"
  | 9 => S "тўққиз"
  | _ => []

/-- The `TENS` table (`numbers.py` lines 23-33). -/
def TENS : Nat → PyStr
  | 10 => S "ўн"
  | 20 => S "йигирма"
  | 30 => S "ўттиз"
  | 40 => S "қирқ"
  | 50 => S "эллик"
  | 60 => S "олтмиш"
  | 70 => S "етмиш"
  | 80 => S "саксон"
  | 90 => S "тўқсон"
  | _ => []

/-- Body of `number_to_uzbek_words` for strictly positive arguments
(`numbers.py` lines 65-117).  All recursive calls of the source reach this
body with a strictly positive argument, so the recursion is mirrored here
directly; the fuel (the argument itself suffices, since every recursive call
strictly decreases the argument) makes the recursion structural. -/
def natWordsPosF : Nat → Nat → PyStr
  | 0, _ => []
  | fuel + 1, num =>
    if 1000000000 ≤ num then
      let billions := num / 1000000000
      let remainder := num % 1000000000
      let r := natWordsPosF fuel billions ++ S " миллиард"
      if 0 < remainder then r ++ S " " ++ natWordsPosF fuel remainder else r
    else if 1000000 ≤ num then
      let millions := num / 1000000
      let remainder := num % 1000000
      let r := natWordsPosF fuel millions ++ S " миллион"
      if 0 < remainder then r ++ S " " ++ natWordsPosF fuel remainder else r
    else if 1000 ≤ num then
      let thousands := num / 1000
      let remainder := num % 1000
      let r := if thousands = 1 then S "минг" else natWordsPosF fuel thousands ++ S " минг"
      if 0 < remainder then r ++ S " " ++ natWordsPosF fuel remainder else r
    else if 100 ≤ num then
      let hundreds := num / 100
      let remainder := num % 100
      let r := if hundreds = 1 then S "юз" else ONES hundreds ++ S " юз"
      if 0 < remainder then r ++ S " " ++ natWordsPosF fuel remainder else r
    else if 10 ≤ num then
      let tensDigit := num / 10 * 10
      let onesDigit := num % 10
      if 0 < onesDigit then TENS tensDigit ++ S " " ++ ONES onesDigit else TENS tensDigit
    else ONES num

/-- `number_to_uzbek_words` restricted to positive numbers. -/
def natWordsPos (n : Nat) : PyStr := natWordsPosF (n + 1) n

/-- `number_to_uzbek_words(num)` (`numbers.py` lines 43-117): zero and the
sign are handled first; the source's recursive call on `abs(num)` re-enters
the function with a positive argument, i.e. reaches `natWordsPos`. -/
def number_to_uzbek_words (num : Int) : PyStr :=
  if num = 0 then S "нол"
  else if num < 0 then S "минус " ++ natWordsPos num.natAbs
  else natWordsPos num.natAbs

/-- Replacement performed on a digit run matched by `r'\d+[.,]?\d*'`
(`numbers.py` lines 152-173, the local `replace_number`). -/
def replace_number (numStr : PyStr) : PyStr :=
  if numStr.contains 0x2E || numStr.contains 0x2C then
    let s1 := replaceAll numStr [0x2E] (S " вергул ")
    let s2 := replaceAll s1 [0x2C] (S " вергул ")
    let parts := splitOnSub s2 (S " вергул ")
    let conv := parts.filterMap (fun part =>
      let st := pyStrip part
      if st ≠ [] ∧ st.all isDigitCh then some (number_to_uzbek_words (pyInt st))
      else if part = [] then some (S "вергул") else none)
    pyJoin (S " ") conv
  else
    -- `int(num_str)` never fails here: the matched run without a separator
    -- consists of digits only.
    number_to_uzbek_words (pyInt numStr)

/-- The ordinal pass `re.sub(r'(\d+)-', ...)` (`numbers.py` lines 140-149):
a digit run immediately followed by a hyphen becomes words plus
`" инчи "`; a digit run not followed by a hyphen cannot match at any of its
positions and is copied verbatim. -/
def ordinalPassF : Nat → PyStr → PyStr
  | _, [] => []
  | 0, s => s
  | fuel + 1, c :: rest =>
    if isDigitCh c then
      let run := c :: rest.takeWhile isDigitCh
      let after := rest.dropWhile isDigitCh
      match after with
      | d :: rest2 =>
        if d = 0x2D then
          number_to_uzbek_words (pyInt run) ++ S " инчи " ++ ordinalPassF fuel rest2
        else run ++ ordinalPassF fuel after
      | [] => run
    else c :: ordinalPassF fuel rest

/-- The generic numeral pass `re.sub(r'\d+[.,]?\d*', replace_number, ...)`
(`numbers.py` line 176): the regex matches a maximal digit run, optionally a
single `.` or `,` and then a further maximal digit run. -/
def numberPassF : Nat → PyStr → PyStr
  | _, [] => []
  | 0, s => s
  | fuel + 1, c :: rest =>
    if isDigitCh c then
      let run1 := c :: rest.takeWhile isDigitCh
      let afterRun1 := rest.dropWhile isDigitCh
      match afterRun1 with
      | d :: rest2 =>
        if d = 0x2E ∨ d = 0x2C then
          let run2 := rest2.takeWhile isDigitCh
          let after := rest2.dropWhile isDigitCh
          replace_number (run1 ++ d :: run2) ++ numberPassF fuel after
        else replace_number run1 ++ numberPassF fuel afterRun1
      | [] => replace_number run1
    else c :: numberPassF fuel rest

/-- `convert_numbers_in_text(text)` (`numbers.py` lines 120-177): the
ordinal pass runs first, then the generic numeral pass. -/
def convert_numbers_in_text (text : PyStr) : PyStr :=
  let r := ordinalPassF (pyLen text) text
  numberPassF (pyLen r) r

/-! ## `bot/transliterate.py` -/

/-- `apostrophe_variants` (`transliterate.py` line 117).  The literal list
in the source contains the ASCII apostrophe three times, the backtick,
U+02BB and U+02BC; it does not contain U+2018 or U+2019. -/
def APOSTROPHE_VARIANTS : List Nat := [0x27, 0x27, 0x27, 0x60, 0x2BB, 0x2BC]

/-- The multi-character entries of `LATIN_TO_CYRILLIC`
(`transliterate.py` lines 16-43), in dictionary (insertion) order.
`0x27` is the ASCII apostrophe. -/
def MULTI_ENTRIES : List (PyStr × PyStr) :=
  [ (S "sh", S "ш"), (S "ch", S "ч"), (S "ng", S "нг"), (S "gh", S "ғ"),
    ([0x6F, 0x27], S "ў"), ([0x67, 0x27], S "ғ"),
    (S "yo", S "ё"), (S "ya", S "я"), (S "ye", S "е"),
    (S "Sh", S "Ш"), (S "Ch", S "Ч"), (S "Ng", S "Нг"), (S "Gh", S "Ғ"),
    ([0x4F, 0x27], S "Ў"), ([0x47, 0x27], S "Ғ"),
    (S "Yo", S "Ё"), (S "Ya", S "Я"), (S "Ye", S "Е"),
    (S "SH", S "Ш"), (S "CH", S "Ч"), (S "NG", S "НГ"), (S "GH", S "Ғ"),
    (S "YO", S "Ё"), (S "YA", S "Я"), (S "YE", S "Е") ]

/-- The single-character entries of `LATIN_TO_CYRILLIC`
(`transliterate.py` lines 46-95), in dictionary order.  There is no entry
for `c`, `w`, `C` or `W`. -/
def SINGLE_ENTRIES : List (PyStr × PyStr) :=
  [ (S "a", S "а"), (S "b", S "б"), (S "d", S "д"), (S "e", S "е"),
    (S "f", S "ф"), (S "g", S "г"), (S "h", S "ҳ"), (S "i", S "и"),
    (S "j", S "ж"), (S "k", S "к"), (S "l", S "л"), (S "m", S "м"),
    (S "n", S "н"), (S "o", S "о"), (S "p", S "п"), (S "q", S "қ"),
    (S "r", S "р"), (S "s", S "с"), (S "t", S "т"), (S "u", S "у"),
    (S "v", S "в"), (S "x", S "х"), (S "y", S "й"), (S "z", S "з"),
    (S "A", S "А"), (S "B", S "Б"), (S "D", S "Д"), (S "E", S "Е"),
    (S "F", S "Ф"), (S "G", S "Г"), (S "H", S "Ҳ"), (S "I", S "И"),
    (S "J", S "Ж"), (S "K", S "К"), (S "L", S "Л"), (S "M", S "М"),
    (S "N", S "Н"), (S "O", S "О"), (S "P", S "П"), (S "Q", S "Қ"),
    (S "R", S "Р"), (S "S", S "С"), (S "T", S "Т"), (S "U", S "У"),
    (S "V", S "В"), (S "X", S "Х"), (S "Y", S "Й"), (S "Z", S "З") ]

/-- The apostrophe-normalization loop of `latin_to_cyrillic`
(`transliterate.py` lines 117-119). -/
def normalizeApostrophes (s : PyStr) : PyStr :=
  APOSTROPHE_VARIANTS.foldl (fun r v => replaceAll r [v] [0x27]) s

/-- The first substitution loop of `latin_to_cyrillic`
(`transliterate.py` lines 123-125): sequentially `str.replace` every
multi-character entry, in table order. -/
def multiCharPass (s : PyStr) : PyStr :=
  MULTI_ENTRIES.foldl (fun acc e => replaceAll acc e.1 e.2) s

/-- The second substitution loop of `latin_to_cyrillic`
(`transliterate.py` lines 128-130): sequentially `str.replace` every
single-character entry, in table order. -/
def singleCharPass (s : PyStr) : PyStr :=
  SINGLE_ENTRIES.foldl (fun acc e => replaceAll acc e.1 e.2) s

/-- `latin_to_cyrillic(text)` (`transliterate.py` lines 99-132): normalize
apostrophes, then the multi-character pass, then the single-character
pass. -/
def latin_to_cyrillic (text : PyStr) : PyStr :=
  singleCharPass (multiCharPass (normalizeApostrophes text))

/-- Characters counted as Cyrillic by both detection routines: the Unicode
range U+0400..U+04FF. -/
def isCyrRangeCh (c : Nat) : Bool := 0x400 ≤ c && c ≤ 0x4FF

/-- Characters counted as Latin: `c.isalpha() and 'a' <= c.lower() <= 'z'`,
which on the ASCII/Cyrillic inputs this program handles is exactly the
ASCII letters. -/
def isLatinLetterCh (c : Nat) : Bool :=
  (0x41 ≤ c && c ≤ 0x5A) || (0x61 ≤ c && c ≤ 0x7A)

/-- `transliterate_if_latin(text)` (`transliterate.py` lines 135-157):
transliterate only when the Latin count strictly exceeds the Cyrillic
count. -/
def transliterate_if_latin (text : PyStr) : PyStr × Bool :=
  let cyrillicCount := text.countP isCyrRangeCh
  let latinCount := text.countP isLatinLetterCh
  if cyrillicCount < latinCount then (latin_to_cyrillic text, true)
  else (text, false)

/-! ## `bot/text_processor.py` -/

/-- `detect_script(text)` (`text_processor.py` lines 47-70). -/
def detect_script (text : PyStr) : PyStr :=
  let cyrillicCount := text.countP isCyrRangeCh
  let latinCount := text.countP isLatinLetterCh
  if latinCount < cyrillicCount then S "Cyrillic"
  else if 0 < latinCount then S "Latin"
  else S "Unknown"

/-! ## `bot/acronyms.py` -/

/-- `LETTER_NAMES_CYRILLIC` (`acronyms.py` lines 13-49). -/
def LETTER_NAMES_CYRILLIC : List (Nat × PyStr) :=
  [ (C1 "А", S "а"), (C1 "Б", S "бе"), (C1 "В", S "ве"), (C1 "Г", S "ге"),
    (C1 "Д", S "де"), (C1 "Е", S "е"), (C1 "Ё", S "ё"), (C1 "Ж", S "же"),
    (C1 "З", S "зе"), (C1 "И", S "и"), (C1 "Й", S "й"), (C1 "К", S "ка"),
    (C1 "Л", S "эл"), (C1 "М", S "эм"), (C1 "Н", S "эн"), (C1 "О", S "о"),
    (C1 "П", S "пе"), (C1 "Р", S "эр"), (C1 "С", S "эс"), (C1 "Т", S "те"),
    (C1 "У", S "у"), (C1 "Ф", S "эф"), (C1 "Х", S "ха"), (C1 "Ҳ", S "ҳа"),
    (C1 "Ц", S "це"), (C1 "Ч", S "че"), (C1 "Ш", S "ша"), (C1 "Ъ", S "ъ"),
    (C1 "Ь", S "ь"), (C1 "Э", S "э"), (C1 "Ю", S "ю"), (C1 "Я", S "я"),
    (C1 "Ғ", S "ға"), (C1 "Қ", S "қа"), (C1 "Ў", S "ў") ]

/-- `LETTER_NAMES_LATIN` (`acronyms.py` lines 52-79). -/
def LETTER_NAMES_LATIN : List (Nat × PyStr) :=
  [ (C1 "A", S "а"), (C1 "B", S "бе"), (C1 "C", S "се"), (C1 "D", S "де"),
    (C1 "E", S "е"), (C1 "F", S "эф"), (C1 "G", S "ге"), (C1 "H", S "аш"),
    (C1 "I", S "и"), (C1 "J", S "же"), (C1 "K", S "ка"), (C1 "L", S "эл"),
    (C1 "M", S "эм"), (C1 "N", S "эн"), (C1 "O", S "о"), (C1 "P", S "пе"),
    (C1 "Q", S "қа"), (C1 "R", S "эр"), (C1 "S", S "эс"), (C1 "T", S "те"),
    (C1 "U", S "у"), (C1 "V", S "ве"), (C1 "W", S "дабл ю"),
    (C1 "X", S "экс"), (C1 "Y", S "уай"), (C1 "Z", S "зе") ]

/-- Dictionary membership / lookup, `char in TABLE` then `TABLE[char]`. -/
def lookupName (tbl : List (Nat × PyStr)) (c : Nat) : Option PyStr :=
  (tbl.find? (fun e => e.1 == c)).map (fun e => e.2)

/-- `char.lower()` on the code points this program manipulates (ASCII
upper-case and the Cyrillic upper-case rows U+0400..U+042F); other code
points are returned unchanged. -/
def pyLowerCh (c : Nat) : Nat :=
  if 0x41 ≤ c ∧ c ≤ 0x5A then c + 32
  else if 0x410 ≤ c ∧ c ≤ 0x42F then c + 32
  else if 0x400 ≤ c ∧ c ≤ 0x40F then c + 80
  else c

/-- The per-character lookup of `spell_out_acronym` (`acronyms.py` lines
100-107): Cyrillic table first, then Latin table, else the character
lowercased. -/
def letterName (ch : Nat) : PyStr :=
  match lookupName LETTER_NAMES_CYRILLIC ch with
  | some nm => nm
  | none =>
    match lookupName LETTER_NAMES_LATIN ch with
    | some nm => nm
    | none => [pyLowerCh ch]

/-- `spell_out_acronym(word)` (`acronyms.py` lines 82-109): the letter
names, joined with single hyphens (`0x2D`). -/
def spell_out_acronym (word : PyStr) : PyStr :=
  pyJoin [0x2D] (word.map letterName)

/-- The character class `[A-ZА-ЯЁҚҒҲЎ]` of the acronym regex
(`acronyms.py` line 145). -/
def isAcroClassCh (c : Nat) : Bool :=
  (0x41 ≤ c && c ≤ 0x5A) || (0x410 ≤ c && c ≤ 0x42F) ||
    c = 0x401 || c = 0x49A || c = 0x492 || c = 0x4B2 || c = 0x40E

/-- Python `\w` (used by `\b`) on the alphabets this program handles:
ASCII letters, digits, the underscore, and the letters of the Cyrillic
block (which is the block minus the symbol U+0482 and the combining marks
U+0483..U+0489). -/
def isWordCh (c : Nat) : Bool :=
  (0x30 ≤ c && c ≤ 0x39) || (0x41 ≤ c && c ≤ 0x5A) || (0x61 ≤ c && c ≤ 0x7A) ||
    c = 0x5F || (0x400 ≤ c && c ≤ 0x481) || (0x48A ≤ c && c ≤ 0x4FF)

/-- Upper-case letters of the two alphabets (`str.isupper()` holds for an
alphabetic word iff every character satisfies this). -/
def pyIsUpperCh (c : Nat) : Bool :=
  (0x41 ≤ c && c ≤ 0x5A) || (0x400 ≤ c && c ≤ 0x42F) ||
    c = 0x49A || c = 0x492 || c = 0x4B2

/-- Letters of the two alphabets (`str.isalpha()` holds for a word iff it
is non-empty and every character satisfies this). -/
def pyIsAlphaCh (c : Nat) : Bool :=
  (0x41 ≤ c && c ≤ 0x5A) || (0x61 ≤ c && c ≤ 0x7A) ||
    (0x400 ≤ c && c ≤ 0x481) || (0x48A ≤ c && c ≤ 0x4FF)

/-- The local `replace_acronym(match)` (`acronyms.py` lines 131-141):
spell out only matches that are ≥ 2 characters, all upper-case and
alphabetic; for a string of regex-class characters `word.isupper()` and
`word.isalpha()` are equivalent to the per-character conditions used
here. -/
def replace_acronym (word : PyStr) : PyStr :=
  if 2 ≤ word.length ∧ word.all pyIsUpperCh ∧ word.all pyIsAlphaCh then
    spell_out_acronym word
  else word

/-- `true` iff a `\b` boundary stands between the end of a matched class
run and what follows it. -/
def boundaryAfter : PyStr → Bool
  | [] => true
  | d :: _ => !isWordCh d

/-- The scanner of `re.sub(r'\b[A-ZА-ЯЁҚҒҲЎ]+\b', replace_acronym, text)`
(`acronyms.py` line 145).  `prevW` records whether the previous character
(if any) is a `\w` character; a match requires no word character before the
run, a maximal run of class characters, and no word character after it.
When no match starts at the current position the scanner emits one
character and moves on, exactly as the regex engine advances its starting
position. -/
def acroScanF : Nat → Bool → PyStr → PyStr
  | _, _, [] => []
  | 0, _, s => s
  | fuel + 1, prevW, c :: rest =>
    if !prevW && isAcroClassCh c then
      let run := c :: rest.takeWhile isAcroClassCh
      let after := rest.dropWhile isAcroClassCh
      if boundaryAfter after then
        replace_acronym run ++ acroScanF fuel true after
      else c :: acroScanF fuel (isWordCh c) rest
    else c :: acroScanF fuel (isWordCh c) rest

/-- `process_acronyms_in_text(text)` (`acronyms.py` lines 112-146). -/
def process_acronyms_in_text (text : PyStr) : PyStr :=
  acroScanF (pyLen text) false text

/-! ## `bot/tts_engine.py`: the normalization pipeline -/

/-- Steps 1-3 of `MMS_TTSEngine._generate_speech` (`tts_engine.py` lines
123-134): acronyms, then numbers, then detect-and-transliterate; the first
component of the result is the text handed to the synthesis model. -/
def normalizer_output (text : PyStr) : PyStr :=
  (transliterate_if_latin (convert_numbers_in_text (process_acronyms_in_text text))).1

/-! ## `bot/text_splitter.py` -/

/-- Sentence-terminal punctuation `[.!?]` (`text_splitter.py` line 44). -/
def isSentPunct (c : Nat) : Bool := c = 0x2E || c = 0x21 || c = 0x3F

/-- The scanner of `re.split(r'([.!?]+\s+)', text)`: the returned list
alternates text pieces (possibly empty) with the separators that matched
the capturing group.  A separator is a maximal run of `[.!?]` followed by a
maximal non-empty run of whitespace; a punctuation character not followed
by whitespace is ordinary text (the regex cannot match there, nor at any
later position inside that punctuation run followed by non-space).  The
accumulator holds the current piece reversed. -/
def reSplitSentF : Nat → PyStr → PyStr → List PyStr
  | _, piece, [] => [piece.reverse]
  | 0, piece, s => [piece.reverse ++ s]
  | fuel + 1, piece, c :: rest =>
    if isSentPunct c then
      let run := c :: rest.takeWhile isSentPunct
      let afterRun := rest.dropWhile isSentPunct
      let ws := afterRun.takeWhile isSpaceCh
      if ws = [] then reSplitSentF fuel (c :: piece) rest
      else piece.reverse :: (run ++ ws) :: reSplitSentF fuel [] (afterRun.dropWhile isSpaceCh)
    else reSplitSentF fuel (c :: piece) rest

def reSplitSent (s : PyStr) : List PyStr := reSplitSentF (pyLen s) [] s

/-- The reconstruction loop (`text_splitter.py` lines 47-56): adjacent
(piece, separator) pairs are glued back together; a trailing unpaired
element (always present, since `re.split` with one capturing group returns
an odd-length list) is appended on its own. -/
def reconstructSentences : List PyStr → List PyStr
  | a :: b :: rest => (a ++ b) :: reconstructSentences rest
  | [a] => [a]
  | [] => []

/-- `word[i:i + max_length] for i in range(0, len(word), max_length)`
(`text_splitter.py` lines 113-114). -/
def sliceChunksF : Nat → Nat → PyStr → List PyStr
  | _, _, [] => []
  | 0, _, _ => []
  | fuel + 1, m, w => w.take m :: sliceChunksF fuel m (w.drop m)

/-- One iteration of the word loop of `_split_by_words`
(`text_splitter.py` lines 105-126); the state is (finished chunks, current
chunk). -/
def splitWordsStep (m : Nat) (st : List PyStr × PyStr) (word : PyStr) :
    List PyStr × PyStr :=
  let chunks := st.1
  let current := st.2
  if m < pyLen word then
    let chunks := if current ≠ [] then chunks ++ [pyStrip current] else chunks
    (chunks ++ sliceChunksF (pyLen word) m word, [])
  else if m < pyLen current + pyLen word + 1 then
    ((if current ≠ [] then chunks ++ [pyStrip current] else chunks), word)
  else
    (chunks, if current ≠ [] then current ++ 0x20 :: word else word)

/-- `_split_by_words(text, max_length)` (`text_splitter.py` lines 90-132). -/
def split_by_words (text : PyStr) (m : Nat) : List PyStr :=
  let words := pySplitWS text
  let st := words.foldl (splitWordsStep m) ([], [])
  if st.2 ≠ [] then st.1 ++ [pyStrip st.2] else st.1

/-- One iteration of the sentence loop of `split_text`
(`text_splitter.py` lines 59-77). -/
def splitStep (m : Nat) (st : List PyStr × PyStr) (sentence : PyStr) :
    List PyStr × PyStr :=
  let chunks := st.1
  let current := st.2
  if m < pyLen sentence then
    (chunks ++ split_by_words sentence m, [])
  else if m < pyLen current + pyLen sentence then
    if current ≠ [] ∧ 2000 ≤ pyLen current then
      (chunks ++ [pyStrip current], sentence)
    else (chunks, current ++ sentence)
  else (chunks, current ++ sentence)

/-- `split_text(text, max_length)` (`text_splitter.py` lines 15-87). -/
def split_text (text : PyStr) (maxLength : Nat := 3000) : List PyStr :=
  let m := if maxLength < 2000 then 2000 else maxLength
  if text = [] ∨ pyStrip text = [] then []
  else if pyLen text ≤ m then [text]
  else
    let sentences := reSplitSent text
    let reconstructed := reconstructSentences sentences
    let st := reconstructed.foldl (splitStep m) ([], [])
    let chunks := if st.2 ≠ [] then st.1 ++ [pyStrip st.2] else st.1
    chunks.filter (fun ch => !(pyStrip ch).isEmpty)

/-! ## Concrete example inputs used by the counterexample theorems -/

/-- `"Hi. "` followed by a single 2001-character word: a short sentence
accumulates into the pending chunk, then an over-long sentence triggers
word-level splitting. -/
def exPending : PyStr := S "Hi. " ++ List.replicate 2001 0x61

/-- Two sentences of 1002 and 1500 characters: merging them exceeds the
2000-character ceiling because the first alone is under the 2000 floor. -/
def exFloorMerge : PyStr :=
  List.replicate 1000 0x61 ++ S ". " ++ List.replicate 1500 0x62

/-! ## Soundness of the tail-recursive helpers -/

theorem pyLenF_eq (s : PyStr) : ∀ n, pyLenF s n = s.length + n := by
  induction s with
  | nil => intro n; simp [pyLenF]
  | cons c r ih =>
    intro n
    match n with
    | 0 => simp [pyLenF, ih]
    | n + 1 => simp [pyLenF, ih]; omega

@[simp] theorem pyLen_eq (s : PyStr) : pyLen s = s.length := by
  simp [pyLen, pyLenF_eq]

theorem eqPy_iff : ∀ a b : PyStr, eqPy a b = true ↔ a = b := by
  intro a
  induction a with
  | nil => intro b; cases b <;> simp [eqPy]
  | cons c r ih =>
    intro b
    cases b with
    | nil => simp [eqPy]
    | cons d s =>
      by_cases hc : c = d <;> simp [eqPy, hc, ih]

theorem eqChunks_iff : ∀ a b : List PyStr, eqChunks a b = true ↔ a = b := by
  intro a
  induction a with
  | nil => intro b; cases b <;> simp [eqChunks]
  | cons c r ih =>
    intro b
    cases b with
    | nil => simp [eqChunks]
    | cons d s =>
      by_cases hc : eqPy c d = true
      · have hcd := (eqPy_iff c d).mp hc
        subst hcd
        simp [eqChunks, hc, ih]
      · have : ¬(c = d) := fun h => hc ((eqPy_iff c d).mpr h)
        simp [eqChunks, hc, this]

theorem memPy_iff (t : Nat) : ∀ s : PyStr, memPy t s = true ↔ t ∈ s := by
  intro s
  induction s with
  | nil => simp [memPy]
  | cons c r ih =>
    by_cases hc : c = t
    · subst hc; simp [memPy]
    · have hct : ¬(t = c) := fun h => hc h.symm
      simp [memPy, hc, ih, hct]

end UzTTS

namespace UzTTS

/-! ## C9: reference equalities of `number_to_uzbek_words` -/

/-- C9: `numberToWords(0)` is the zero word; for every positive `n`,
`numberToWords(-n)` is the minus word followed by `numberToWords(n)`;
1000 and 100 elide the "one" multiplier; and the literal reference values
for 42 and 2023 hold. -/
theorem c9_number_words_reference :
    number_to_uzbek_words 0 = S "нол" ∧
    (∀ n : Nat, 0 < n →
      number_to_uzbek_words (-(n : Int)) = S "минус " ++ number_to_uzbek_words (n : Int)) ∧
    number_to_uzbek_words 1000 = S "минг" ∧
    number_to_uzbek_words 100 = S "юз" ∧
    number_to_uzbek_words 42 = S "қирқ икки" ∧
    number_to_uzbek_words 2023 = S "икки минг йигирма уч" := by
  refine ⟨by decide, ?_, by decide, by decide, by decide, by decide⟩
  intro n hn
  have h0 : ¬(-(n : Int) = 0) := by omega
  have h1 : -(n : Int) < 0 := by omega
  have h2 : ¬((n : Int) = 0) := by omega
  have h3 : ¬((n : Int) < 0) := by omega
  simp [number_to_uzbek_words, h0, h1, h2, h3, Int.natAbs_neg, Int.natAbs_ofNat]

/-- Witness for C9 at `n = 5`. -/
theorem c9_number_words_reference_witness :
    (0 : Nat) < 5 ∧
    number_to_uzbek_words (-((5 : Nat) : Int)) =
      S "минус " ++ number_to_uzbek_words ((5 : Nat) : Int) :=
  ⟨by decide, c9_number_words_reference.2.1 5 (by decide)⟩

/-! ## C1: the splitter drops the pending chunk at an over-long sentence -/

/-- C1 (failing input): on `"Hi. "` followed by a 2001-character word, with
ceiling 2000, `split_text` returns only the word's slices: the accumulated
chunk `"Hi. "` (its `H`, code 0x48, in particular) is absent from the
output, so joining the chunks cannot reproduce the input's non-whitespace
content. -/
theorem c1_split_text_drops_pending_chunk :
    split_text exPending 2000 = [List.replicate 2000 0x61, [0x61]] ∧
    memPy 0x48 exPending = true ∧
    memPy 0x48 ((split_text exPending 2000).foldr (· ++ ·) []) = false :=
  ⟨(eqChunks_iff _ _).mp (by decide), by decide, by decide⟩

/-! ## C7: the floor rule pushes a chunk past the ceiling -/

/-- C7 (counterexample): two sentences of 1002 and 1500 characters, each
within the 2000 ceiling, are merged into a single 2502-character chunk
because the accumulated chunk was still below the 2000-character floor —
so a chunk assembled from several within-ceiling sentences can exceed the
ceiling, refuting the claim that only a single atomic unit can force an
excess. -/
theorem c7_ceiling_exceeded_counterexample :
    split_text exFloorMerge 2000 = [exFloorMerge] ∧
    2000 < pyLen exFloorMerge ∧
    (reconstructSentences (reSplitSent exFloorMerge)).all
      (fun u => pyLen u ≤ 2000) = true :=
  ⟨(eqChunks_iff _ _).mp (by decide), by decide, by decide⟩

/-! ## C6: the short path returns the input untrimmed -/

/-- C6 (counterexample): `" a "` is within the ceiling and non-blank, and
`split_text` returns it as-is, not trimmed; so the single chunk is not
equal to the trimmed input and is itself untrimmed. -/
theorem c6_untrimmed_counterexample :
    split_text (S " a ") 3000 = [S " a "] ∧
    pyStrip (S " a ") = S "a" ∧ S " a " ≠ S "a" := by decide

/-! ## C3: the comma word disappears between two non-empty sides -/

/-- C3 (counterexample): `"3.5"` converts to `"уч беш"` — the two sides are
converted but the spoken comma word does not appear between them. -/
theorem c3_decimal_comma_counterexample :
    convert_numbers_in_text (S "3.5") = S "уч беш" ∧
    S "уч беш" ≠ S "уч вергул беш" := by decide

/-! ## C4: a tie is not transliterated -/

/-- C4 (counterexample): on the two-character text `аb` (one Cyrillic and
one Latin letter, a tie), `transliterate_if_latin` returns the text
unchanged with `was_latin = false`, although the claim says a tie with at
least one Latin letter is transliterated in this call path. -/
theorem c4_tie_not_transliterated_counterexample :
    transliterate_if_latin [0x430, 0x62] = ([0x430, 0x62], false) ∧
    ([0x430, 0x62] : PyStr).countP isCyrRangeCh =
      ([0x430, 0x62] : PyStr).countP isLatinLetterCh ∧
    0 < ([0x430, 0x62] : PyStr).countP isLatinLetterCh := by decide

/-! ## C5: U+2018 is not a supported apostrophe variant -/

/-- C5 (counterexample): `o‘zbek` written with the left single quotation
mark U+2018 does not transliterate to the same output as `o'zbek` with the
ASCII apostrophe (0x27): U+2018 is not in the source's variant list. -/
theorem c5_left_quote_counterexample :
    latin_to_cyrillic (S "o‘zbek") = S "о‘збек" ∧
    latin_to_cyrillic (S "o" ++ [0x27] ++ S "zbek") = S "ўзбек" ∧
    S "о‘збек" ≠ S "ўзбек" := by decide

/-! ## C8: digits block acronym boundaries -/

/-- C8 (counterexample): in `AB2` the uppercase run `AB` is adjacent to a
digit, which Python's `\b` treats as a word character, so no boundary
exists and the text is returned unchanged — not spelled out as the claim's
boundary rule (digits delimit words) would require. -/
theorem c8_digit_boundary_counterexample :
    process_acronyms_in_text (S "AB2") = S "AB2" ∧
    S "AB2" ≠ spell_out_acronym (S "AB") ++ [0x32] := by decide

/-! ## C2: Latin letters survive the normalization pipeline -/

/-- C2 (counterexample): the pipeline output of `"doc doc doc"` (an
all-Latin input, so it is transliterated) still contains the Latin letter
`c` (0x63); and a majority-Cyrillic input with a Latin word passes through
completely unchanged, keeping `h` (0x68). -/
theorem c2_latin_residue_counterexample :
    normalizer_output (S "doc doc doc") = S "доc доc доc" ∧
    memPy 0x63 (normalizer_output (S "doc doc doc")) = true ∧
    normalizer_output (S "Привет Привет hello") = S "Привет Привет hello" ∧
    memPy 0x68 (normalizer_output (S "Привет Привет hello")) = true := by decide

end UzTTS

namespace UzTTS

/-- C4 (amended): both detection operations count Cyrillic-range characters
versus ASCII Latin letters and are distinct, but in the
detect-and-transliterate call path a tie is treated as Cyrillic — the text
is transliterated only when Latin strictly outnumbers Cyrillic — while the
tagging operation returns "Unknown" when both counts are zero and "Latin"
on a tie with at least one Latin letter. -/
theorem c4_detection_amended :
    (∀ s : PyStr, (transliterate_if_latin s).2 = true ↔
      s.countP isCyrRangeCh < s.countP isLatinLetterCh) ∧
    (∀ s : PyStr, s.countP isLatinLetterCh ≤ s.countP isCyrRangeCh →
      transliterate_if_latin s = (s, false)) ∧
    (∀ s : PyStr, s.countP isCyrRangeCh = 0 → s.countP isLatinLetterCh = 0 →
      detect_script s = S "Unknown") ∧
    (∀ s : PyStr, s.countP isLatinLetterCh = s.countP isCyrRangeCh →
      0 < s.countP isLatinLetterCh → detect_script s = S "Latin") := by
  refine ⟨?_, ?_, ?_, ?_⟩
  · intro s
    simp only [transliterate_if_latin]
    split_ifs with h <;> simp [h]
  · intro s hle
    simp only [transliterate_if_latin]
    rw [if_neg (by omega)]
  · intro s h1 h2
    simp [detect_script, h1, h2]
  · intro s he hp
    have hnot : ¬(s.countP isLatinLetterCh < s.countP isCyrRangeCh) := by omega
    simp [detect_script, hnot, hp]

/-- Witness for C4 (amended) on a one-character Cyrillic text. -/
theorem c4_detection_amended_witness :
    transliterate_if_latin [0x430] = ([0x430], false) :=
  c4_detection_amended.2.1 [0x430] (by decide)

/-- C6 (amended): for a non-blank input within the (clamped) ceiling,
`split_text` returns exactly one chunk equal to the input as-is (possibly
untrimmed); for blank input it returns the empty list; and every chunk of
every output is non-blank (its trim is non-empty). -/
theorem c6_split_text_amended :
    (∀ (text : PyStr) (m : Nat), pyStrip text ≠ [] →
      text.length ≤ (if m < 2000 then 2000 else m) → split_text text m = [text]) ∧
    (∀ (text : PyStr) (m : Nat), pyStrip text = [] → split_text text m = []) ∧
    (∀ (text : PyStr) (m : Nat), ∀ c ∈ split_text text m, pyStrip c ≠ []) := by
  refine ⟨?_, ?_, ?_⟩
  · intro text m hne hlen
    have htext : ¬(text = [] ∨ pyStrip text = []) := by
      rintro (h | h)
      · exact hne (by simp [h, pyStrip, pyLStrip, pyRStrip])
      · exact hne h
    simp only [split_text]
    rw [if_neg htext, if_pos (by simpa using hlen)]
  · intro text m hnil
    simp only [split_text]
    rw [if_pos (Or.inr hnil)]
  · intro text m c hc
    by_cases h1 : text = [] ∨ pyStrip text = []
    · simp only [split_text] at hc
      rw [if_pos h1] at hc
      exact absurd hc (List.not_mem_nil c)
    · simp only [split_text] at hc
      rw [if_neg h1] at hc
      by_cases h2 : pyLen text ≤ (if m < 2000 then 2000 else m)
      · rw [if_pos h2] at hc
        have hc' : c = text := by simpa using hc
        subst hc'
        exact fun h => h1 (Or.inr h)
      · rw [if_neg h2] at hc
        have hmem := (List.mem_filter.mp hc).2
        simp only [Bool.not_eq_true'] at hmem
        intro hnil
        rw [hnil] at hmem
        simp [List.isEmpty] at hmem

/-- Witness for C6 (amended) on a short two-letter input. -/
theorem c6_split_text_amended_witness :
    split_text (S "ab") 3000 = [S "ab"] :=
  c6_split_text_amended.1 (S "ab") 3000 (by decide) (by decide)

end UzTTS

namespace UzTTS

/-! ## Chunk-length bounds for the splitter (C7) -/

theorem pyStrip_length_le (s : PyStr) : (pyStrip s).length ≤ s.length := by
  have h1 : (pyLStrip s).length ≤ s.length :=
    (List.dropWhile_sublist _).length_le
  have h2 : (pyRStrip (pyLStrip s)).length ≤ (pyLStrip s).length := by
    simp only [pyRStrip, List.length_reverse]
    calc ((pyLStrip s).reverse.dropWhile isSpaceCh).length
        ≤ (pyLStrip s).reverse.length := (List.dropWhile_sublist _).length_le
      _ = (pyLStrip s).length := by simp
  exact le_trans h2 h1

theorem sliceChunksF_length_le (m : Nat) :
    ∀ (fuel : Nat) (w : PyStr), ∀ c ∈ sliceChunksF fuel m w, c.length ≤ m := by
  intro fuel
  induction fuel with
  | zero => intro w c hc; cases w <;> simp [sliceChunksF] at hc
  | succ fuel ih =>
    intro w c hc
    cases w with
    | nil => simp [sliceChunksF] at hc
    | cons a rest =>
      simp only [sliceChunksF] at hc
      rcases List.mem_cons.mp hc with h | h
      · subst h
        simp [List.length_take]
      · exact ih _ c h


theorem splitWordsStep_inv (m : Nat) (st : List PyStr × PyStr) (w : PyStr)
    (h1 : ∀ c ∈ st.1, c.length ≤ m) (h2 : st.2.length ≤ m) :
    (∀ c ∈ (splitWordsStep m st w).1, c.length ≤ m) ∧
      (splitWordsStep m st w).2.length ≤ m := by
  obtain ⟨chunks, current⟩ := st
  dsimp only at h1 h2
  simp only [splitWordsStep]
  split_ifs with hw hcur1 hov hcur2 hcur3 <;> dsimp only
  · -- over-long word, pending chunk flushed, then the word's slices
    refine ⟨?_, by simp⟩
    intro c hcm
    rcases List.mem_append.mp hcm with h | h
    · rcases List.mem_append.mp h with h' | h'
      · exact h1 c h'
      · have hce : c = pyStrip current := by simpa using h'
        subst hce
        exact le_trans (pyStrip_length_le current) h2
    · exact sliceChunksF_length_le m _ w c h
  · -- over-long word, no pending chunk
    refine ⟨?_, by simp⟩
    intro c hcm
    rcases List.mem_append.mp hcm with h | h
    · exact h1 c h
    · exact sliceChunksF_length_le m _ w c h
  · -- word does not fit: flush, word starts the next chunk
    refine ⟨?_, ?_⟩
    · intro c hcm
      rcases List.mem_append.mp hcm with h | h
      · exact h1 c h
      · have hce : c = pyStrip current := by simpa using h
        subst hce
        exact le_trans (pyStrip_length_le current) h2
    · rw [pyLen_eq] at hw
      omega
  · -- word does not fit, nothing to flush
    refine ⟨h1, ?_⟩
    rw [pyLen_eq] at hw
    omega
  · -- word appended after a space
    refine ⟨h1, ?_⟩
    rw [pyLen_eq, pyLen_eq] at hov
    simp only [List.length_append, List.length_cons]
    omega
  · -- word becomes the whole chunk
    refine ⟨h1, ?_⟩
    rw [pyLen_eq] at hw
    omega

theorem splitWords_foldl_inv (m : Nat) :
    ∀ (ws : List PyStr) (st : List PyStr × PyStr),
      (∀ c ∈ st.1, c.length ≤ m) → st.2.length ≤ m →
      (∀ c ∈ (ws.foldl (splitWordsStep m) st).1, c.length ≤ m) ∧
        (ws.foldl (splitWordsStep m) st).2.length ≤ m := by
  intro ws
  induction ws with
  | nil => intro st h1 h2; exact ⟨h1, h2⟩
  | cons w ws ih =>
    intro st h1 h2
    have h := splitWordsStep_inv m st w h1 h2
    exact ih _ h.1 h.2

theorem split_by_words_length_le (s : PyStr) (m : Nat) :
    ∀ c ∈ split_by_words s m, c.length ≤ m := by
  intro c hc
  simp only [split_by_words] at hc
  have h := splitWords_foldl_inv m (pySplitWS s) ([], [])
    (by intro x hx; simp at hx) (by simp)
  split_ifs at hc with h2
  · rcases List.mem_append.mp hc with hm | hm
    · exact h.1 c hm
    · have hce : c = pyStrip (((pySplitWS s).foldl (splitWordsStep m) ([], [])).2) := by
        simpa using hm
      subst hce
      exact le_trans (pyStrip_length_le _) h.2
  · exact h.1 c hc

theorem splitStep_inv (m : Nat) (st : List PyStr × PyStr) (sentence : PyStr)
    (h1 : ∀ c ∈ st.1, c.length ≤ 1999 + m) (h2 : st.2.length ≤ 1999 + m) :
    (∀ c ∈ (splitStep m st sentence).1, c.length ≤ 1999 + m) ∧
      (splitStep m st sentence).2.length ≤ 1999 + m := by
  obtain ⟨chunks, current⟩ := st
  dsimp only at h1 h2
  simp only [splitStep]
  split_ifs with hs hov hfl <;> dsimp only
  · -- over-long sentence: its word-level chunks are all within the ceiling
    refine ⟨?_, by simp⟩
    intro c hcm
    rcases List.mem_append.mp hcm with h | h
    · exact h1 c h
    · have := split_by_words_length_le sentence m c h
      omega
  · -- ceiling reached and floor met: flush
    refine ⟨?_, ?_⟩
    · intro c hcm
      rcases List.mem_append.mp hcm with h | h
      · exact h1 c h
      · have hce : c = pyStrip current := by simpa using h
        subst hce
        exact le_trans (pyStrip_length_le current) h2
    · rw [pyLen_eq] at hs
      omega
  · -- ceiling reached, floor not met: keep appending past the ceiling
    refine ⟨h1, ?_⟩
    have hs' : sentence.length ≤ m := by rw [pyLen_eq] at hs; omega
    have hcur : current.length ≤ 1999 := by
      by_cases hnil : current = []
      · simp [hnil]
      · by_contra hbig
        exact hfl ⟨hnil, by rw [pyLen_eq]; omega⟩
    simp only [List.length_append]
    omega
  · -- sentence fits
    refine ⟨h1, ?_⟩
    rw [pyLen_eq, pyLen_eq] at hov
    simp only [List.length_append]
    omega

theorem splitStep_foldl_inv (m : Nat) :
    ∀ (ss : List PyStr) (st : List PyStr × PyStr),
      (∀ c ∈ st.1, c.length ≤ 1999 + m) → st.2.length ≤ 1999 + m →
      (∀ c ∈ (ss.foldl (splitStep m) st).1, c.length ≤ 1999 + m) ∧
        (ss.foldl (splitStep m) st).2.length ≤ 1999 + m := by
  intro ss
  induction ss with
  | nil => intro st h1 h2; exact ⟨h1, h2⟩
  | cons s ss ih =>
    intro st h1 h2
    have h := splitStep_inv m st s h1 h2
    exact ih _ h.1 h.2

/-- C7 (amended): a chunk may exceed the ceiling, but only through the
minimum-size rule — when the pending chunk is still under the
2000-character floor the splitter keeps appending past the ceiling, so
every chunk is strictly shorter than 2000 plus the clamped ceiling; single
over-long sentences and words are split down to within the ceiling by
`_split_by_words` and never force an excess by themselves. -/
theorem c7_chunk_bound_amended (text : PyStr) (m : Nat) :
    ∀ c ∈ split_text text m, c.length < 2000 + (if m < 2000 then 2000 else m) := by
  intro c hc
  simp only [split_text] at hc
  set M := if m < 2000 then 2000 else m with hM
  by_cases h1 : text = [] ∨ pyStrip text = []
  · rw [if_pos h1] at hc
    cases hc
  · rw [if_neg h1] at hc
    by_cases h2 : pyLen text ≤ M
    · rw [if_pos h2] at hc
      have hc' : c = text := by simpa using hc
      subst hc'
      rw [pyLen_eq] at h2
      omega
    · rw [if_neg h2] at hc
      have hc' := (List.mem_filter.mp hc).1
      have hfold := splitStep_foldl_inv M
        (reconstructSentences (reSplitSent text)) ([], [])
        (by intro x hx; simp at hx) (by simp)
      split_ifs at hc' with h3
      · rcases List.mem_append.mp hc' with h | h
        · have := hfold.1 c h
          omega
        · have hce : c = pyStrip (((reconstructSentences (reSplitSent text)).foldl
            (splitStep M) ([], [])).2) := by simpa using h
          subst hce
          have := le_trans (pyStrip_length_le _) hfold.2
          omega
      · have := hfold.1 c hc'
        omega

/-- Witness for C7 (amended) on a short input. -/
theorem c7_chunk_bound_amended_witness :
    (S "ab").length < 2000 + (if (3000 : Nat) < 2000 then 2000 else 3000) :=
  c7_chunk_bound_amended (S "ab") 3000 (S "ab") (by decide)

end UzTTS

namespace UzTTS

/-! ## Single-character `str.replace` as a pointwise substitution -/

theorem replaceAllF_single (a : Nat) (rep : PyStr) :
    ∀ (fuel : Nat) (s : PyStr), s.length ≤ fuel →
      replaceAllF [a] rep fuel s =
        s.flatMap (fun c => if c = a then rep else [c]) := by
  intro fuel
  induction fuel with
  | zero =>
    intro s hs
    have hnil : s = [] := by cases s <;> simp_all
    subst hnil
    simp [replaceAllF]
  | succ fuel ih =>
    intro s hs
    cases s with
    | nil => simp [replaceAllF]
    | cons c rest =>
      have hpre : ([a] : PyStr).isPrefixOf (c :: rest) = (a == c) := by
        simp [List.isPrefixOf]
      have hrest : rest.length ≤ fuel := by
        simp only [List.length_cons] at hs
        omega
      simp only [replaceAllF, hpre, List.flatMap_cons]
      by_cases hca : a = c
      · subst hca
        simp [ih rest hrest]
      · have hac : ¬(c = a) := fun h => hca h.symm
        simp [hca, hac, ih rest hrest]

theorem replaceAll_single (s : PyStr) (a : Nat) (rep : PyStr) :
    replaceAll s [a] rep = s.flatMap (fun c => if c = a then rep else [c]) := by
  simp only [replaceAll]
  rw [if_neg (by simp)]
  exact replaceAllF_single a rep (pyLen s) s (by simp)

theorem replaceAll_single_map (s : PyStr) (a b : Nat) :
    replaceAll s [a] [b] = s.map (fun c => if c = a then b else c) := by
  rw [replaceAll_single]
  induction s with
  | nil => rfl
  | cons c rest ih =>
    by_cases hca : c = a <;> simp [List.flatMap_cons, hca, ih]

theorem count_replaceAll_single (k v t : Nat) (hk : k ≠ t) (hv : v ≠ t) (s : PyStr) :
    (replaceAll s [k] [v]).count t = s.count t := by
  rw [replaceAll_single_map]
  induction s with
  | nil => rfl
  | cons c rest ih =>
    by_cases hc : c = k
    · subst hc
      have h1 : (v == t) = false := by simp [hv]
      have h2 : (c == t) = false := by simp [hk]
      simp [List.count_cons, h1, h2, ih]
    · simp [List.count_cons, hc, ih]

theorem count_foldl_single_entries (t : Nat) :
    ∀ L : List (PyStr × PyStr),
      (∀ e ∈ L, e.1.length = 1 ∧ e.2.length = 1 ∧ t ∉ e.1 ∧ t ∉ e.2) →
      ∀ s : PyStr,
        (L.foldl (fun acc e => replaceAll acc e.1 e.2) s).count t = s.count t := by
  intro L
  induction L with
  | nil => intro _ s; rfl
  | cons e L ih =>
    intro hL s
    obtain ⟨h1, h2, h3, h4⟩ := hL e (List.mem_cons_self e L)
    obtain ⟨k, hk⟩ : ∃ k, e.1 = [k] := by
      cases he1 : e.1 with
      | nil => rw [he1] at h1; simp at h1
      | cons x tl =>
        cases tl with
        | nil => exact ⟨x, rfl⟩
        | cons y tl2 => rw [he1] at h1; simp at h1
    obtain ⟨v, hv⟩ : ∃ v, e.2 = [v] := by
      cases he2 : e.2 with
      | nil => rw [he2] at h2; simp at h2
      | cons x tl =>
        cases tl with
        | nil => exact ⟨x, rfl⟩
        | cons y tl2 => rw [he2] at h2; simp at h2
    have hkt : k ≠ t := by
      rw [hk] at h3
      simp at h3
      exact fun h => h3 h.symm
    have hvt : v ≠ t := by
      rw [hv] at h4
      simp at h4
      exact fun h => h4 h.symm
    simp only [List.foldl_cons]
    rw [ih (fun x hx => hL x (List.mem_cons_of_mem _ hx)), hk, hv,
      count_replaceAll_single k v t hkt hvt]

/-- C10: `latin_to_cyrillic` maps `"doc"` to `"доc"`, whose Latin `c`
(0x63) survives, and the single-character pass cannot consume any of the
letters `c`, `w`, `C`, `W` — the single-character table has no entry whose
key or value is one of them, so their occurrence counts are preserved by
that pass.  (Totality never raising is immediate: the embedding is a total
function, mirroring the source's exception-free `str.replace` chains.) -/
theorem c10_cw_preserved :
    latin_to_cyrillic (S "doc") = S "доc" ∧
    memPy 0x63 (latin_to_cyrillic (S "doc")) = true ∧
    (∀ t ∈ [0x63, 0x77, 0x43, 0x57], ∀ s : PyStr,
      (singleCharPass s).count t = s.count t) := by
  refine ⟨by decide, by decide, ?_⟩
  intro t ht s
  simp only [singleCharPass]
  fin_cases ht <;> exact count_foldl_single_entries _ SINGLE_ENTRIES (by decide) s

/-- Witness for C10: the count of `w` (0x77) is untouched by the
single-character pass on `"web"`. -/
theorem c10_cw_preserved_witness :
    (singleCharPass (S "web")).count 0x77 = (S "web").count 0x77 :=
  c10_cw_preserved.2.2 0x77 (by decide) (S "web")

end UzTTS

namespace UzTTS

/-! ## Apostrophe normalization as a pointwise map (C5) -/

theorem normalizeApostrophes_eq_map (s : PyStr) :
    normalizeApostrophes s = s.map (fun c =>
      if c = 0x27 ∨ c = 0x60 ∨ c = 0x2BB ∨ c = 0x2BC then 0x27 else c) := by
  simp only [normalizeApostrophes, APOSTROPHE_VARIANTS, List.foldl_cons, List.foldl_nil]
  rw [replaceAll_single_map, replaceAll_single_map, replaceAll_single_map,
    replaceAll_single_map, replaceAll_single_map, replaceAll_single_map,
    List.map_map, List.map_map, List.map_map, List.map_map, List.map_map]
  apply List.map_congr_left
  intro c _
  by_cases h1 : c = 0x27
  · subst h1; decide
  · by_cases h2 : c = 0x60
    · subst h2; decide
    · by_cases h3 : c = 0x2BB
      · subst h3; decide
      · by_cases h4 : c = 0x2BC
        · subst h4; decide
        · simp [Function.comp, h1, h2, h3, h4]

/-- C5 (amended): for every apostrophe variant `v` in the source's list
(ASCII apostrophe, backtick, U+02BB, U+02BC — not U+2018),
`latin_to_cyrillic` of a word written with `v` in place of the canonical
apostrophe equals `latin_to_cyrillic` of the word with the canonical
apostrophe. -/
theorem c5_apostrophe_amended (w : PyStr) (v : Nat) (hv : v ∈ APOSTROPHE_VARIANTS) :
    latin_to_cyrillic (w.map (fun c => if c = 0x27 then v else c)) =
      latin_to_cyrillic w := by
  have hvcases : v = 0x27 ∨ v = 0x60 ∨ v = 0x2BB ∨ v = 0x2BC := by
    simpa [APOSTROPHE_VARIANTS] using hv
  have hnorm : normalizeApostrophes (w.map (fun c => if c = 0x27 then v else c)) =
      normalizeApostrophes w := by
    rw [normalizeApostrophes_eq_map, normalizeApostrophes_eq_map, List.map_map]
    apply List.map_congr_left
    intro c _
    by_cases hc : c = 0x27
    · subst hc
      rcases hvcases with h | h | h | h <;> subst h <;> decide
    · simp [Function.comp, hc]
  simp only [latin_to_cyrillic]
  rw [hnorm]

/-- Witness for C5 (amended): the backtick variant of `o'zbek`
transliterates like the canonical form. -/
theorem c5_apostrophe_amended_witness :
    latin_to_cyrillic ((S "o" ++ [0x27] ++ S "zbek").map
        (fun c => if c = 0x27 then 0x60 else c)) =
      latin_to_cyrillic (S "o" ++ [0x27] ++ S "zbek") :=
  c5_apostrophe_amended (S "o" ++ [0x27] ++ S "zbek") 0x60 (by decide)

end UzTTS

namespace UzTTS

/-! ## takeWhile / dropWhile helpers -/

theorem takeWhile_all {p : Nat → Bool} : ∀ {l : PyStr},
    (∀ c ∈ l, p c = true) → l.takeWhile p = l := by
  intro l h
  induction l with
  | nil => rfl
  | cons c rest ih =>
    rw [List.takeWhile_cons, h c (by simp)]
    simp [ih (fun x hx => h x (by simp [hx]))]

theorem dropWhile_all {p : Nat → Bool} : ∀ {l : PyStr},
    (∀ c ∈ l, p c = true) → l.dropWhile p = [] := by
  intro l h
  induction l with
  | nil => rfl
  | cons c rest ih =>
    rw [List.dropWhile_cons, h c (by simp)]
    simp [ih (fun x hx => h x (by simp [hx]))]

theorem takeWhile_append_all {p : Nat → Bool} : ∀ {l1 : PyStr} (l2 : PyStr),
    (∀ c ∈ l1, p c = true) → (l1 ++ l2).takeWhile p = l1 ++ l2.takeWhile p := by
  intro l1
  induction l1 with
  | nil => intro l2 _; rfl
  | cons c rest ih =>
    intro l2 h
    rw [List.cons_append, List.takeWhile_cons, h c (by simp)]
    simp [ih l2 (fun x hx => h x (by simp [hx]))]

theorem dropWhile_append_all {p : Nat → Bool} : ∀ {l1 : PyStr} (l2 : PyStr),
    (∀ c ∈ l1, p c = true) → (l1 ++ l2).dropWhile p = l2.dropWhile p := by
  intro l1
  induction l1 with
  | nil => intro l2 _; rfl
  | cons c rest ih =>
    intro l2 h
    rw [List.cons_append, List.dropWhile_cons, h c (by simp)]
    simp [ih l2 (fun x hx => h x (by simp [hx]))]

/-! ## Character-class implications -/

theorem acro_upper {c : Nat} (h : isAcroClassCh c = true) : pyIsUpperCh c = true := by
  simp only [isAcroClassCh, Bool.or_eq_true, Bool.and_eq_true, decide_eq_true_eq] at h
  simp only [pyIsUpperCh, Bool.or_eq_true, Bool.and_eq_true, decide_eq_true_eq]
  omega

theorem acro_alpha {c : Nat} (h : isAcroClassCh c = true) : pyIsAlphaCh c = true := by
  simp only [isAcroClassCh, Bool.or_eq_true, Bool.and_eq_true, decide_eq_true_eq] at h
  simp only [pyIsAlphaCh, Bool.or_eq_true, Bool.and_eq_true, decide_eq_true_eq]
  omega

theorem acro_word {c : Nat} (h : isAcroClassCh c = true) : isWordCh c = true := by
  simp only [isAcroClassCh, Bool.or_eq_true, Bool.and_eq_true, decide_eq_true_eq] at h
  simp only [isWordCh, Bool.or_eq_true, Bool.and_eq_true, decide_eq_true_eq]
  omega

theorem digit_word {c : Nat} (h : isDigitCh c = true) : isWordCh c = true := by
  simp only [isDigitCh, Bool.and_eq_true, decide_eq_true_eq] at h
  simp only [isWordCh, Bool.or_eq_true, Bool.and_eq_true, decide_eq_true_eq]
  omega

theorem digit_not_acro {c : Nat} (h : isDigitCh c = true) : isAcroClassCh c = false := by
  cases hb : isAcroClassCh c with
  | false => rfl
  | true =>
    exfalso
    simp only [isDigitCh, Bool.and_eq_true, decide_eq_true_eq] at h
    simp only [isAcroClassCh, Bool.or_eq_true, Bool.and_eq_true, decide_eq_true_eq] at hb
    omega

theorem digit_not_space {c : Nat} (h : isDigitCh c = true) : isSpaceCh c = false := by
  cases hb : isSpaceCh c with
  | false => rfl
  | true =>
    exfalso
    simp only [isDigitCh, Bool.and_eq_true, decide_eq_true_eq] at h
    simp only [isSpaceCh, Bool.or_eq_true, decide_eq_true_eq] at hb
    omega

/-! ## The acronym scanner (C8) -/

theorem acroScanF_nil : ∀ (fuel : Nat) (b : Bool), acroScanF fuel b [] = [] := by
  intro fuel b
  cases fuel <;> rfl

theorem acroScanF_all_word : ∀ (fuel : Nat) (s : PyStr),
    (∀ c ∈ s, isWordCh c = true) → acroScanF fuel true s = s := by
  intro fuel
  induction fuel with
  | zero => intro s _; cases s <;> rfl
  | succ fuel ih =>
    intro s h
    cases s with
    | nil => rfl
    | cons c rest =>
      simp only [acroScanF, Bool.not_true, Bool.false_and]
      rw [if_neg (by simp)]
      rw [h c (by simp), ih rest (fun x hx => h x (by simp [hx]))]

theorem process_whole_acronym (run : PyStr)
    (hall : ∀ c ∈ run, isAcroClassCh c = true) (hlen : 2 ≤ run.length) :
    process_acronyms_in_text run = spell_out_acronym run := by
  obtain ⟨c, rest, rfl⟩ : ∃ c rest, run = c :: rest := by
    cases run with
    | nil => simp at hlen
    | cons c rest => exact ⟨c, rest, rfl⟩
  have hrest : ∀ x ∈ rest, isAcroClassCh x = true :=
    fun x hx => hall x (by simp [hx])
  simp only [process_acronyms_in_text, pyLen_eq, List.length_cons]
  simp only [acroScanF]
  rw [if_pos (by simp [hall c (by simp)])]
  rw [takeWhile_all hrest, dropWhile_all hrest]
  simp only [boundaryAfter, if_pos]
  rw [acroScanF_nil, List.append_nil]
  simp only [replace_acronym]
  rw [if_pos]
  refine ⟨by simpa using hlen, ?_, ?_⟩
  · simp only [List.all_eq_true]
    exact fun x hx => acro_upper (hall x hx)
  · simp only [List.all_eq_true]
    exact fun x hx => acro_alpha (hall x hx)

theorem process_single_letter (c : Nat) (h : isAcroClassCh c = true) :
    process_acronyms_in_text [c] = [c] := by
  simp only [process_acronyms_in_text, pyLen_eq, List.length_cons, List.length_nil]
  simp only [acroScanF]
  rw [if_pos (by simp [h])]
  simp only [List.takeWhile_nil, List.dropWhile_nil, boundaryAfter, if_pos]
  simp [replace_acronym]

theorem process_acronym_digit_suffix (run : PyStr) (d : Nat)
    (hall : ∀ c ∈ run, isAcroClassCh c = true) (hne : run ≠ [])
    (hd : isDigitCh d = true) :
    process_acronyms_in_text (run ++ [d]) = run ++ [d] := by
  obtain ⟨c, rest, rfl⟩ : ∃ c rest, run = c :: rest := by
    cases run with
    | nil => exact absurd rfl hne
    | cons c rest => exact ⟨c, rest, rfl⟩
  have hrest : ∀ x ∈ rest, isAcroClassCh x = true :=
    fun x hx => hall x (by simp [hx])
  have hdacro : isAcroClassCh d = false := digit_not_acro hd
  simp only [process_acronyms_in_text, pyLen_eq, List.cons_append, List.length_cons]
  simp only [acroScanF]
  rw [if_pos (by simp [hall c (by simp)])]
  rw [takeWhile_append_all [d] hrest, dropWhile_append_all [d] hrest]
  rw [List.takeWhile_cons, hdacro]
  rw [List.dropWhile_cons, hdacro]
  simp only [Bool.false_eq_true, if_false]
  rw [if_neg (by simp [boundaryAfter, digit_word hd])]
  rw [acro_word (hall c (by simp))]
  rw [acroScanF_all_word _ (rest ++ [d])
    (by
      intro x hx
      rcases List.mem_append.mp hx with h1 | h1
      · exact acro_word (hrest x h1)
      · have : x = d := by simpa using h1
        subst this
        exact digit_word hd)]

theorem letterName_no_hyphen {c : Nat} (h : isAcroClassCh c = true) :
    (letterName c).count 0x2D = 0 := by
  have hcyr : ∀ p ∈ LETTER_NAMES_CYRILLIC, p.2.count 0x2D = 0 := by decide
  have hlat : ∀ p ∈ LETTER_NAMES_LATIN, p.2.count 0x2D = 0 := by decide
  simp only [letterName, lookupName]
  cases h1 : LETTER_NAMES_CYRILLIC.find? (fun e => e.1 == c) with
  | some e =>
    simp only [Option.map_some']
    exact hcyr e (List.mem_of_find?_eq_some h1)
  | none =>
    simp only [Option.map_none']
    cases h2 : LETTER_NAMES_LATIN.find? (fun e => e.1 == c) with
    | some e =>
      simp only [Option.map_some']
      exact hlat e (List.mem_of_find?_eq_some h2)
    | none =>
      simp only [Option.map_none']
      have hc' := h
      simp only [isAcroClassCh, Bool.or_eq_true, Bool.and_eq_true,
        decide_eq_true_eq] at hc'
      have hlow : ¬(pyLowerCh c = 0x2D) := by
        simp only [pyLowerCh]
        split_ifs <;> omega
      simp [List.count_singleton', hlow]

theorem pyJoin_hyphen_count : ∀ parts : List PyStr,
    (∀ p ∈ parts, p.count 0x2D = 0) → parts ≠ [] →
    (pyJoin [0x2D] parts).count 0x2D = parts.length - 1 := by
  intro parts
  induction parts with
  | nil => intro _ h; exact absurd rfl h
  | cons x rest ih =>
    intro hall _
    cases rest with
    | nil => simp [pyJoin, hall x (by simp)]
    | cons y rest2 =>
      have hx := hall x (by simp)
      have hrest : ∀ p ∈ y :: rest2, p.count 0x2D = 0 :=
        fun p hp => hall p (by simp [hp])
      simp only [pyJoin]
      rw [List.count_append, List.count_append, ih hrest (by simp)]
      have hone : ([0x2D] : PyStr).count 0x2D = 1 := by decide
      simp only [hone, hx, List.length_cons]
      omega

theorem spell_out_hyphen_count (run : PyStr)
    (hall : ∀ c ∈ run, isAcroClassCh c = true) (hne : run ≠ []) :
    (spell_out_acronym run).count 0x2D = run.length - 1 := by
  simp only [spell_out_acronym]
  rw [pyJoin_hyphen_count (run.map letterName)
    (by
      intro p hp
      obtain ⟨c, hc, rfl⟩ := List.mem_map.mp hp
      exact letterName_no_hyphen (hall c hc))
    (by simpa using hne)]
  simp

/-- C8 (amended): with regex `\b` boundaries — where letters, digits and
the underscore all count as word characters, so an uppercase run adjacent
to a digit has no boundary and is left alone — the processor replaces a
standalone run of ≥ 2 regex-class (uppercase) characters by its spelled
form, leaves single class characters unchanged, leaves a class run
directly followed by a digit unchanged, and the spelled form of an n-letter
run contains exactly n−1 hyphens (the letter names themselves are
hyphen-free). -/
theorem c8_acronym_amended :
    (∀ run : PyStr, (∀ c ∈ run, isAcroClassCh c = true) → 2 ≤ run.length →
      process_acronyms_in_text run = spell_out_acronym run) ∧
    (∀ c : Nat, isAcroClassCh c = true → process_acronyms_in_text [c] = [c]) ∧
    (∀ (run : PyStr) (d : Nat), (∀ c ∈ run, isAcroClassCh c = true) → run ≠ [] →
      isDigitCh d = true → process_acronyms_in_text (run ++ [d]) = run ++ [d]) ∧
    (∀ run : PyStr, (∀ c ∈ run, isAcroClassCh c = true) → run ≠ [] →
      (spell_out_acronym run).count 0x2D = run.length - 1) := by
  exact ⟨process_whole_acronym, process_single_letter,
    process_acronym_digit_suffix, spell_out_hyphen_count⟩

/-- Witness for C8 (amended): a standalone two-letter uppercase run is
spelled out. -/
theorem c8_acronym_amended_witness :
    process_acronyms_in_text (S "AB") = spell_out_acronym (S "AB") :=
  c8_acronym_amended.1 (S "AB") (by decide) (by decide)

end UzTTS

namespace UzTTS

/-! ## The decimal branch of the numeral pass (C3) -/

theorem isDigit_range {c : Nat} (h : isDigitCh c = true) : 0x30 ≤ c ∧ c ≤ 0x39 := by
  simpa [isDigitCh, Bool.and_eq_true, decide_eq_true_eq] using h

theorem ordinalPassF_no_hyphen : ∀ (fuel : Nat) (s : PyStr), s.length ≤ fuel →
    0x2D ∉ s → ordinalPassF fuel s = s := by
  intro fuel
  induction fuel with
  | zero =>
    intro s hs _
    cases s with
    | nil => rfl
    | cons c rest => simp at hs
  | succ fuel ih =>
    intro s hs hmem
    cases s with
    | nil => rfl
    | cons c rest =>
      have hrestlen : rest.length ≤ fuel := by simp at hs; omega
      simp only [ordinalPassF]
      by_cases hd : isDigitCh c = true
      · rw [if_pos hd]
        cases hafter : rest.dropWhile isDigitCh with
        | nil =>
          have htw : rest.takeWhile isDigitCh = rest := by
            have h := List.takeWhile_append_dropWhile isDigitCh rest
            rw [hafter, List.append_nil] at h
            exact h
          simp [htw]
        | cons d rest2 =>
          have hsub : rest.dropWhile isDigitCh ⊆ rest :=
            (List.dropWhile_sublist _).subset
          have hdmem : d ∈ rest := hsub (by rw [hafter]; simp)
          have hdne : ¬(d = 0x2D) := fun he => hmem (by
            subst he
            exact List.mem_cons_of_mem c hdmem)
          dsimp only
          rw [if_neg hdne]
          have hlen2 : (d :: rest2).length ≤ fuel := by
            have := (List.dropWhile_sublist (p := isDigitCh) (l := rest)).length_le
            rw [hafter] at this
            omega
          have hmem2 : 0x2D ∉ d :: rest2 := by
            intro hm
            rw [← hafter] at hm
            exact hmem (List.mem_cons_of_mem c (hsub hm))
          rw [ih (d :: rest2) hlen2 hmem2]
          have h := List.takeWhile_append_dropWhile isDigitCh rest
          rw [hafter] at h
          simp only [List.cons_append]
          rw [h]
      · rw [if_neg hd]
        have hmem2 : 0x2D ∉ rest := fun hm => hmem (List.mem_cons_of_mem c hm)
        rw [ih rest hrestlen hmem2]

theorem numberPassF_nil : ∀ fuel : Nat, numberPassF fuel [] = [] := by
  intro fuel
  cases fuel <;> rfl

theorem numberPassF_single_run (ds1 ds2 : PyStr) (sep : Nat)
    (hsep : sep = 0x2E ∨ sep = 0x2C) (h1 : ds1 ≠ [])
    (hd1 : ∀ c ∈ ds1, isDigitCh c = true) (hd2 : ∀ c ∈ ds2, isDigitCh c = true)
    (fuel : Nat) (hfuel : (ds1 ++ sep :: ds2).length ≤ fuel) :
    numberPassF fuel (ds1 ++ sep :: ds2) = replace_number (ds1 ++ sep :: ds2) := by
  obtain ⟨c, rest1, rfl⟩ : ∃ c rest1, ds1 = c :: rest1 := by
    cases ds1 with
    | nil => exact absurd rfl h1
    | cons c rest1 => exact ⟨c, rest1, rfl⟩
  have hrest1 : ∀ x ∈ rest1, isDigitCh x = true :=
    fun x hx => hd1 x (by simp [hx])
  have hsepd : isDigitCh sep = false := by
    cases hb : isDigitCh sep with
    | false => rfl
    | true =>
      exfalso
      have := isDigit_range hb
      rcases hsep with h | h <;> omega
  obtain ⟨f, rfl⟩ : ∃ f, fuel = f + 1 := by
    cases fuel with
    | zero => simp at hfuel
    | succ f => exact ⟨f, rfl⟩
  simp only [List.cons_append, numberPassF]
  simp only [List.append_eq]
  rw [if_pos (hd1 c (by simp))]
  rw [takeWhile_append_all (sep :: ds2) hrest1,
    dropWhile_append_all (sep :: ds2) hrest1]
  rw [List.takeWhile_cons, hsepd]
  rw [List.dropWhile_cons, hsepd]
  simp only [Bool.false_eq_true, if_false, List.append_nil]
  rw [if_pos hsep]
  rw [takeWhile_all hd2, dropWhile_all hd2]
  rw [numberPassF_nil, List.append_nil]

theorem flatMap_id_of {f : Nat → PyStr} : ∀ {l : PyStr},
    (∀ c ∈ l, f c = [c]) → l.flatMap f = l := by
  intro l h
  induction l with
  | nil => rfl
  | cons c rest ih =>
    rw [List.flatMap_cons, h c (by simp), ih (fun x hx => h x (by simp [hx]))]
    rfl

theorem replaceAll_decimal_shape (ds1 ds2 : PyStr) (sep : Nat)
    (hsep : sep = 0x2E ∨ sep = 0x2C)
    (hd1 : ∀ c ∈ ds1, isDigitCh c = true) (hd2 : ∀ c ∈ ds2, isDigitCh c = true) :
    replaceAll (replaceAll (ds1 ++ sep :: ds2) [0x2E] (S " вергул ")) [0x2C] (S " вергул ")
      = ds1 ++ (S " вергул " ++ ds2) := by
  have hdot : ∀ {c : Nat}, isDigitCh c = true →
      (if c = 0x2E then S " вергул " else [c]) = [c] := by
    intro c hc
    rw [if_neg]
    have := isDigit_range hc
    omega
  have hcom : ∀ {c : Nat}, isDigitCh c = true →
      (if c = 0x2C then S " вергул " else [c]) = [c] := by
    intro c hc
    rw [if_neg]
    have := isDigit_range hc
    omega
  rw [replaceAll_single, replaceAll_single]
  rcases hsep with hs | hs <;> subst hs
  · rw [List.flatMap_append, List.flatMap_cons]
    rw [flatMap_id_of (fun c hc => hdot (hd1 c hc))]
    rw [if_pos rfl]
    rw [flatMap_id_of (fun c hc => hdot (hd2 c hc))]
    rw [List.flatMap_append, List.flatMap_append]
    rw [flatMap_id_of (fun c hc => hcom (hd1 c hc))]
    rw [flatMap_id_of (fun c hc => hcom (hd2 c hc))]
    have hW : (S " вергул ").flatMap
        (fun c => if c = 0x2C then S " вергул " else [c]) = S " вергул " := by decide
    rw [hW]
  · rw [List.flatMap_append, List.flatMap_cons]
    rw [flatMap_id_of (fun c hc => hdot (hd1 c hc))]
    rw [if_neg (by omega)]
    rw [flatMap_id_of (fun c hc => hdot (hd2 c hc))]
    rw [List.flatMap_append, List.flatMap_append, List.flatMap_cons]
    rw [flatMap_id_of (fun c hc => hcom (hd1 c hc))]
    rw [if_pos rfl]
    rw [flatMap_id_of (fun c hc => hcom (hd2 c hc))]
    simp [List.append_assoc]

theorem w_not_pref {c : Nat} (rest : PyStr) (hc : ¬(c = 0x20)) :
    (S " вергул ").isPrefixOf (c :: rest) = false := by
  have hW : S " вергул " = 0x20 :: S "вергул " := by decide
  rw [hW]
  simp only [List.isPrefixOf]
  have : (0x20 == c) = false := by
    simp only [beq_eq_false_iff_ne, ne_eq]
    exact fun h => hc h.symm
  rw [this]
  simp

theorem splitOnSubF_digits_only : ∀ (fuel : Nat) (acc ds : PyStr),
    (∀ c ∈ ds, isDigitCh c = true) →
    splitOnSubF (S " вергул ") fuel acc ds = [acc.reverse ++ ds] := by
  intro fuel
  induction fuel with
  | zero =>
    intro acc ds _
    cases ds with
    | nil => simp [splitOnSubF]
    | cons c r => simp [splitOnSubF]
  | succ fuel ih =>
    intro acc ds h
    cases ds with
    | nil => simp [splitOnSubF]
    | cons c r =>
      simp only [splitOnSubF]
      have hc : isDigitCh c = true := h c (by simp)
      rw [w_not_pref r (by have := isDigit_range hc; omega)]
      simp only [Bool.false_eq_true, if_false]
      rw [ih (c :: acc) r (fun x hx => h x (by simp [hx]))]
      simp

theorem splitOnSubF_shape : ∀ (fuel : Nat) (acc ds1 ds2 : PyStr),
    (∀ c ∈ ds1, isDigitCh c = true) → (∀ c ∈ ds2, isDigitCh c = true) →
    ds1.length + 1 ≤ fuel →
    splitOnSubF (S " вергул ") fuel acc (ds1 ++ (S " вергул " ++ ds2)) =
      [acc.reverse ++ ds1, ds2] := by
  intro fuel
  induction fuel with
  | zero =>
    intro acc ds1 ds2 _ _ h
    omega
  | succ fuel ih =>
    intro acc ds1 ds2 h1 h2 hlen
    cases ds1 with
    | nil =>
      have hWc : S " вергул " = 0x20 :: S "вергул " := by decide
      have hcons : S " вергул " ++ ds2 = 0x20 :: (S "вергул " ++ ds2) := by
        rw [hWc, List.cons_append]
      simp only [List.nil_append]
      rw [hcons]
      simp only [splitOnSubF]
      have hpre : (S " вергул ").isPrefixOf (0x20 :: (S "вергул " ++ ds2)) = true := by
        rw [List.isPrefixOf_iff_prefix, ← List.cons_append, ← hWc]
        exact List.prefix_append _ _
      rw [if_pos hpre]
      have hlen7 : (S " вергул ").length - 1 = (S "вергул ").length := by decide
      rw [hlen7, List.drop_left]
      rw [splitOnSubF_digits_only fuel [] ds2 h2]
      simp
    | cons c rest1 =>
      rw [List.cons_append]
      simp only [splitOnSubF]
      have hc := h1 c (by simp)
      rw [w_not_pref _ (by have := isDigit_range hc; omega)]
      simp only [Bool.false_eq_true, if_false]
      rw [ih (c :: acc) rest1 ds2 (fun x hx => h1 x (by simp [hx])) h2
        (by simp at hlen; omega)]
      simp

theorem pyStrip_digits {ds : PyStr} (h : ∀ c ∈ ds, isDigitCh c = true) :
    pyStrip ds = ds := by
  have hns : ∀ c ∈ ds, isSpaceCh c = false := fun c hc => digit_not_space (h c hc)
  simp only [pyStrip, pyLStrip, pyRStrip]
  have h1 : ds.dropWhile isSpaceCh = ds := by
    cases ds with
    | nil => rfl
    | cons c r =>
      rw [List.dropWhile_cons, hns c (by simp)]
      simp
  rw [h1]
  cases hrev : ds.reverse with
  | nil =>
    have hds : ds = [] := by
      have := congrArg List.reverse hrev
      simpa using this
    simp [hds]
  | cons c r =>
    have hcmem : c ∈ ds := List.mem_reverse.mp (by rw [hrev]; simp)
    rw [List.dropWhile_cons, hns c hcmem]
    simp only [Bool.false_eq_true, if_false]
    rw [← hrev, List.reverse_reverse]

end UzTTS

namespace UzTTS

theorem replace_number_decimal (ds1 ds2 : PyStr) (sep : Nat)
    (hsep : sep = 0x2E ∨ sep = 0x2C) (h1 : ds1 ≠ [])
    (hd1 : ∀ c ∈ ds1, isDigitCh c = true) (hd2 : ∀ c ∈ ds2, isDigitCh c = true) :
    replace_number (ds1 ++ sep :: ds2) =
      if ds2 = [] then number_to_uzbek_words (pyInt ds1) ++ S " вергул"
      else number_to_uzbek_words (pyInt ds1) ++ S " " ++
        number_to_uzbek_words (pyInt ds2) := by
  have hcond : ((ds1 ++ sep :: ds2).contains 0x2E ||
      (ds1 ++ sep :: ds2).contains 0x2C) = true := by
    rcases hsep with hs | hs <;> subst hs
    · have hm : (0x2E : Nat) ∈ ds1 ++ 0x2E :: ds2 :=
        List.mem_append.mpr (Or.inr (by simp))
      simp [List.elem_iff.mpr hm]
    · have hm : (0x2C : Nat) ∈ ds1 ++ 0x2C :: ds2 :=
        List.mem_append.mpr (Or.inr (by simp))
      simp [List.elem_iff.mpr hm]
  simp only [replace_number]
  rw [if_pos hcond]
  rw [replaceAll_decimal_shape ds1 ds2 sep hsep hd1 hd2]
  have hsplit : splitOnSub (ds1 ++ (S " вергул " ++ ds2)) (S " вергул ") =
      [ds1, ds2] := by
    simp only [splitOnSub]
    rw [if_neg (by decide), pyLen_eq]
    rw [splitOnSubF_shape _ [] ds1 ds2 hd1 hd2
      (by
        have hw8 : (S " вергул ").length = 8 := by decide
        simp [List.length_append, hw8]
        omega)]
    simp
  rw [hsplit]
  have hall1 : ds1.all isDigitCh = true := List.all_eq_true.mpr hd1
  by_cases hds2 : ds2 = []
  · subst hds2
    rw [if_pos rfl]
    simp only [List.filterMap_cons, List.filterMap_nil]
    simp only [pyStrip_digits hd1, hall1, h1, ne_eq, not_false_iff, and_true,
      if_true, if_pos]
    have hstrip : pyStrip ([] : PyStr) = [] := by decide
    simp only [hstrip]
    simp only [ne_eq, not_true_eq_false, false_and, if_false, if_true]
    simp only [pyJoin]
    have hsv : S " " ++ S "вергул" = S " вергул" := by decide
    rw [List.append_assoc, hsv]
  · rw [if_neg hds2]
    have hall2 : ds2.all isDigitCh = true := List.all_eq_true.mpr hd2
    simp only [List.filterMap_cons, List.filterMap_nil]
    simp only [pyStrip_digits hd1, pyStrip_digits hd2, hall1, hall2, h1, hds2,
      ne_eq, not_false_iff, and_true, if_true, if_pos]
    simp only [pyJoin]

/-- C3 (amended): for a digit run with exactly one decimal separator,
`convert_numbers_in_text` converts both sides and joins them with a single
space — the spoken comma word does not appear between two non-empty sides;
only when the side after the separator is empty does the comma word appear,
on its own after the left side's words. -/
theorem c3_decimal_amended (ds1 ds2 : PyStr) (sep : Nat)
    (hsep : sep = 0x2E ∨ sep = 0x2C) (h1 : ds1 ≠ [])
    (hd1 : ∀ c ∈ ds1, isDigitCh c = true) (hd2 : ∀ c ∈ ds2, isDigitCh c = true) :
    convert_numbers_in_text (ds1 ++ sep :: ds2) =
      if ds2 = [] then number_to_uzbek_words (pyInt ds1) ++ S " вергул"
      else number_to_uzbek_words (pyInt ds1) ++ S " " ++
        number_to_uzbek_words (pyInt ds2) := by
  have hmem : 0x2D ∉ ds1 ++ sep :: ds2 := by
    intro hm
    rcases List.mem_append.mp hm with h | h
    · have := isDigit_range (hd1 _ h)
      omega
    · rcases List.mem_cons.mp h with h | h
      · rcases hsep with hs | hs <;> omega
      · have := isDigit_range (hd2 _ h)
        omega
  simp only [convert_numbers_in_text, pyLen_eq]
  rw [ordinalPassF_no_hyphen _ _ le_rfl hmem]
  rw [numberPassF_single_run ds1 ds2 sep hsep h1 hd1 hd2 _ le_rfl]
  exact replace_number_decimal ds1 ds2 sep hsep h1 hd1 hd2

/-- Witness for C3 (amended) at `3.5`. -/
theorem c3_decimal_amended_witness :
    convert_numbers_in_text (S "3" ++ 0x2E :: S "5") =
      (if (S "5" : PyStr) = [] then
        number_to_uzbek_words (pyInt (S "3")) ++ S " вергул"
      else number_to_uzbek_words (pyInt (S "3")) ++ S " " ++
        number_to_uzbek_words (pyInt (S "5"))) :=
  c3_decimal_amended (S "3") (S "5") 0x2E (Or.inl rfl) (by decide)
    (by decide) (by decide)

end UzTTS

namespace UzTTS

/-! ## No digits survive the numeral pass (C2) -/

theorem ONES_no_digit (k : Nat) : (ONES k).all (fun c => !isDigitCh c) = true := by
  unfold ONES
  split <;> decide

theorem TENS_no_digit (k : Nat) : (TENS k).all (fun c => !isDigitCh c) = true := by
  unfold TENS
  split <;> decide

theorem natWordsPosF_no_digit : ∀ (fuel num : Nat),
    (natWordsPosF fuel num).all (fun c => !isDigitCh c) = true := by
  intro fuel
  induction fuel with
  | zero => intro num; rfl
  | succ fuel ih =>
    intro num
    have hmrd : (S " миллиард").all (fun c => !isDigitCh c) = true := by decide
    have hmln : (S " миллион").all (fun c => !isDigitCh c) = true := by decide
    have hmg1 : (S "минг").all (fun c => !isDigitCh c) = true := by decide
    have hmg2 : (S " минг").all (fun c => !isDigitCh c) = true := by decide
    have hyz1 : (S "юз").all (fun c => !isDigitCh c) = true := by decide
    have hyz2 : (S " юз").all (fun c => !isDigitCh c) = true := by decide
    have hsp : (S " ").all (fun c => !isDigitCh c) = true := by decide
    simp only [natWordsPosF]
    split_ifs <;>
      simp [List.all_append, ih, ONES_no_digit, TENS_no_digit,
        hmrd, hmln, hmg1, hmg2, hyz1, hyz2, hsp]

theorem number_words_no_digit (num : Int) :
    (number_to_uzbek_words num).all (fun c => !isDigitCh c) = true := by
  have hnol : (S "нол").all (fun c => !isDigitCh c) = true := by decide
  have hmin : (S "минус ").all (fun c => !isDigitCh c) = true := by decide
  simp only [number_to_uzbek_words]
  split_ifs <;>
    simp [List.all_append, natWordsPos, natWordsPosF_no_digit, hnol, hmin]

theorem pyJoin_all {p : Nat → Bool} (sep : PyStr) (hsep : sep.all p = true) :
    ∀ parts : List PyStr, (∀ x ∈ parts, x.all p = true) →
      (pyJoin sep parts).all p = true := by
  intro parts
  induction parts with
  | nil => intro _; rfl
  | cons x rest ih =>
    intro h
    cases rest with
    | nil => simpa using h x (by simp)
    | cons y rest2 =>
      simp only [pyJoin, List.all_append]
      simp [h x (by simp), hsep, ih (fun z hz => h z (by simp [hz]))]

theorem replace_number_no_digit (numStr : PyStr) :
    (replace_number numStr).all (fun c => !isDigitCh c) = true := by
  simp only [replace_number]
  split_ifs with h
  · apply pyJoin_all (S " ") (by decide)
    intro x hx
    obtain ⟨a, ha, hfa⟩ := List.mem_filterMap.mp hx
    by_cases hc1 : pyStrip a ≠ [] ∧ (pyStrip a).all isDigitCh
    · rw [if_pos hc1] at hfa
      obtain rfl : number_to_uzbek_words (pyInt (pyStrip a)) = x := by
        simpa using hfa
      exact number_words_no_digit _
    · rw [if_neg hc1] at hfa
      by_cases hc2 : a = []
      · rw [if_pos hc2] at hfa
        obtain rfl : S "вергул" = x := by simpa using hfa
        decide
      · rw [if_neg hc2] at hfa
        simp at hfa
  · exact number_words_no_digit _

theorem numberPassF_no_digit : ∀ (fuel : Nat) (s : PyStr), s.length ≤ fuel →
    (numberPassF fuel s).all (fun c => !isDigitCh c) = true := by
  intro fuel
  induction fuel with
  | zero =>
    intro s hs
    cases s with
    | nil => rfl
    | cons c r => simp at hs
  | succ fuel ih =>
    intro s hs
    cases s with
    | nil => rfl
    | cons c rest =>
      have hrl : rest.length ≤ fuel := by simp at hs; omega
      simp only [numberPassF]
      by_cases hd : isDigitCh c = true
      · rw [if_pos hd]
        cases hafter : rest.dropWhile isDigitCh with
        | nil =>
          dsimp only
          exact replace_number_no_digit _
        | cons d rest2 =>
          have hdroplen : (d :: rest2).length ≤ rest.length := by
            have := (List.dropWhile_sublist (p := isDigitCh) (l := rest)).length_le
            rw [hafter] at this
            omega
          dsimp only
          by_cases hsep : d = 0x2E ∨ d = 0x2C
          · rw [if_pos hsep]
            have h2 : (rest2.dropWhile isDigitCh).length ≤ fuel := by
              have := (List.dropWhile_sublist (p := isDigitCh) (l := rest2)).length_le
              simp only [List.length_cons] at hdroplen
              omega
            simp [List.all_append, replace_number_no_digit, ih _ h2]
          · rw [if_neg hsep]
            have h2 : (d :: rest2).length ≤ fuel := by omega
            simp [List.all_append, replace_number_no_digit, ih _ h2]
      · rw [if_neg hd]
        have hdf : isDigitCh c = false := by
          cases hb : isDigitCh c with
          | false => rfl
          | true => exact absurd hb hd
        simp [hdf, ih rest hrl]

/-- C2 (amended): the pipeline output contains no residual ASCII digits —
`convert_numbers_in_text` converts every digit run — but the "single
canonical script" half of the claim fails: the transliteration stage is a
no-op whenever the Latin letter count does not strictly exceed the
Cyrillic-range count, and even a transliterated text keeps the Latin
letters `c`/`w`, which have no single-character table entry. -/
theorem c2_normalizer_amended :
    (∀ s : PyStr, (convert_numbers_in_text s).all (fun c => !isDigitCh c) = true) ∧
    (∀ s : PyStr,
      (convert_numbers_in_text (process_acronyms_in_text s)).countP isLatinLetterCh ≤
        (convert_numbers_in_text (process_acronyms_in_text s)).countP isCyrRangeCh →
      normalizer_output s = convert_numbers_in_text (process_acronyms_in_text s)) ∧
    memPy 0x63 (latin_to_cyrillic (S "doc")) = true := by
  refine ⟨?_, ?_, by decide⟩
  · intro s
    simp only [convert_numbers_in_text, pyLen_eq]
    exact numberPassF_no_digit _ _ le_rfl
  · intro s hle
    simp only [normalizer_output, transliterate_if_latin]
    rw [if_neg (by omega)]

/-- Witness for C2 (amended) on an all-Cyrillic input. -/
theorem c2_normalizer_amended_witness :
    normalizer_output (S "яя") =
      convert_numbers_in_text (process_acronyms_in_text (S "яя")) :=
  c2_normalizer_amended.2.1 (S "яя") (by decide)

end UzTTS
